import Mathlib

/-!
Verification development for the `adac` repository: a shallow embedding of the
packet fragmentation / reassembly transport (`adac/communicator.py`) and of the
iterative consensus engine (`adac/consensus/iterative.py`), together with
theorems about the embedded operations.

Modelling conventions:
* a Python `bytes` value is a `List Nat` (each byte a `Nat`);
* a Python `dict` is an association list `List (K × V)` with insert-or-replace
  semantics (`dictGet` / `dictSet` below);
* a Python function that can raise an exception returns an `Option`;
  `none` models an uncaught exception at that call;
* network addresses are `String`s, as in the source.
-/

set_option maxRecDepth 2000

namespace Adac

/-- Lookup in a Python-dict modelled as an association list (first match). -/
def dictGet {K V : Type} [DecidableEq K] (k : K) : List (K × V) → Option V
  | [] => none
  | (k1, v) :: rest => if k1 = k then some v else dictGet k rest

/-- Insert-or-replace in a Python-dict modelled as an association list.
Replacing keeps the key in place; a new key is appended at the end, matching
the insertion-order semantics of Python dicts. -/
def dictSet {K V : Type} [DecidableEq K] (k : K) (v : V) : List (K × V) → List (K × V)
  | [] => [(k, v)]
  | (k1, v1) :: rest => if k1 = k then (k, v) :: rest else (k1, v1) :: dictSet k v rest

theorem dictGet_dictSet_self {K V : Type} [DecidableEq K] (k : K) (v : V)
    (m : List (K × V)) : dictGet k (dictSet k v m) = some v := by
  induction m with
  | nil => simp [dictGet, dictSet]
  | cons hd tl ih =>
    obtain ⟨k1, v1⟩ := hd
    by_cases h : k1 = k
    · simp [dictGet, dictSet, h]
    · simp [dictGet, dictSet, h, ih]

theorem dictGet_dictSet_ne {K V : Type} [DecidableEq K] {k k2 : K} (v : V)
    (m : List (K × V)) (h : k2 ≠ k) :
    dictGet k (dictSet k2 v m) = dictGet k m := by
  induction m with
  | nil => simp [dictGet, dictSet, h]
  | cons hd tl ih =>
    obtain ⟨k1, v1⟩ := hd
    by_cases h1 : k1 = k2
    · subst h1
      simp [dictGet, dictSet, h, Ne.symm h]
    · by_cases h2 : k1 = k
      · simp [dictGet, dictSet, h1, h2, Ne.symm h]
      · simp [dictGet, dictSet, h1, h2, ih]

theorem dictSet_fresh {K V : Type} [DecidableEq K] {k : K} (v : V)
    {m : List (K × V)} (h : dictGet k m = none) :
    dictSet k v m = m ++ [(k, v)] := by
  induction m with
  | nil => simp [dictSet]
  | cons hd tl ih =>
    obtain ⟨k1, v1⟩ := hd
    by_cases h1 : k1 = k
    · simp [dictGet, h1] at h
    · simp only [dictGet, h1, if_false] at h
      simp [dictSet, h1, ih h]

theorem dictSet_dictSet {K V : Type} [DecidableEq K] (k : K) (v v2 : V)
    (m : List (K × V)) : dictSet k v (dictSet k v2 m) = dictSet k v m := by
  induction m with
  | nil => simp [dictSet]
  | cons hd tl ih =>
    obtain ⟨k1, v1⟩ := hd
    by_cases h1 : k1 = k
    · simp [dictSet, h1]
    · simp [dictSet, h1, ih]

/-- Lookup in the graph of a function: a dict built as the pairs `(x, g x)`. -/
theorem dictGet_graph {V : Type} (g : Nat → V) :
    ∀ (s : List Nat) (j : Nat), j ∈ s →
      dictGet j (s.map (fun x => (x, g x))) = some (g j) := by
  intro s
  induction s with
  | nil => intro j hj; cases hj
  | cons x rest ih =>
    intro j hj
    by_cases hx : x = j
    · subst hx
      simp [dictGet]
    · have hj2 : j ∈ rest := by
        rcases List.mem_cons.mp hj with h | h
        · exact absurd h.symm hx
        · exact h
      simp [dictGet, hx, ih j hj2]

/-!
## Wire codec (`communicator.py`)

`struct.pack('H', n)` on a little-endian host produces the two bytes
`[n % 256, n / 256]` and raises `struct.error` when `n` does not fit in 16
bits.  `struct.unpack('H', b)` requires `b` to hold exactly 2 bytes and
decodes little-endian; `int.from_bytes(b, 'little')` decodes a byte string of
any length.
-/

/-- Model of `struct.pack('H', n)`: two little-endian bytes, or `none`
(a struct.error) when `n` is out of the 16-bit range. -/
def packU16 (n : Nat) : Option (List Nat) :=
  if n < 65536 then some [n % 256, n / 256] else none

/-- Model of `int.from_bytes(bs, byteorder='little')`. -/
def leValue : List Nat → Nat
  | [] => 0
  | b :: rest => b + 256 * leValue rest

theorem leValue_packU16 {n : Nat} {bs : List Nat} (h : packU16 n = some bs) :
    leValue bs = n := by
  unfold packU16 at h
  split at h
  · cases h
    simp [leValue, Nat.mod_add_div]
  · cases h

theorem leValue_two (n : Nat) :
    leValue [n % 256, n / 256] = n % 256 + 256 * (n / 256) := by
  simp [leValue]

/-- Model of `build_meta_packet(seq_num, seq_total, tag)` from
`communicator.py`: packs `seq_total` then `seq_num` as 16-bit little-endian
fields and appends the first 4 bytes of the tag. -/
def build_meta_packet (seq_num seq_total : Nat) (tag : List Nat) : Option (List Nat) :=
  (packU16 seq_total).bind (fun st =>
    (packU16 seq_num).map (fun sn => st ++ sn ++ tag.take 4))

/-- Model of `get_mtu()`: returns the constant 576. -/
def mtu : Nat := 576

/-- The local `max_payload = self.mtu - 68` of `create_packets` (= 508). -/
def max_payload : Nat := mtu - 68

/-- The local `metadata_size = 8` of `create_packets`. -/
def metadata_size : Nat := 8

/-- The local `max_data = max_payload - metadata_size` of `create_packets`
(= 500). -/
def max_data : Nat := max_payload - metadata_size

/-- The Python loop `for i in range(...): packets.append(...)` over an
`Option`-returning body: `none` anywhere aborts the whole call (an exception
escaping the loop). -/
def optMap (f : Nat → Option (List Nat)) : List Nat → Option (List (List Nat))
  | [] => some []
  | i :: rest =>
    match f i, optMap f rest with
    | some p, some ps => some (p :: ps)
    | _, _ => none

theorem optMap_eq_map {f : Nat → Option (List Nat)} {g : Nat → List Nat} :
    ∀ {l : List Nat}, (∀ i ∈ l, f i = some (g i)) → optMap f l = some (l.map g) := by
  intro l
  induction l with
  | nil => intro _; rfl
  | cons i rest ih =>
    intro h
    have hi : f i = some (g i) := h i (by simp)
    have hr := ih (fun j hj => h j (by simp [hj]))
    simp [optMap, hi, hr]

theorem optMap_none {f : Nat → Option (List Nat)} :
    ∀ {l : List Nat} {i : Nat}, i ∈ l → f i = none → optMap f l = none := by
  intro l
  induction l with
  | nil => intro i hi; cases hi
  | cons j rest ih =>
    intro i hi hf
    rcases List.mem_cons.mp hi with h | h
    · subst h
      simp [optMap, hf]
    · cases hfj : f j with
      | none => simp [optMap, hfj]
      | some p => simp [optMap, hfj, ih h hf]

/-- Model of `Communicator.create_packets(data, tag)`: splits `data` into
packets.  A single packet when `len(data) <= max_data`; otherwise
`total_packets = len(data) // max_payload` sliced packets of `max_data` bytes
each, plus one final packet carrying the remainder
`data[total_packets * max_data:]`. -/
def create_packets (data tag : List Nat) : Option (List (List Nat)) :=
  if data.length ≤ max_data then
    (build_meta_packet 0 0 tag).map (fun m => [m ++ data])
  else
    (optMap (fun i => (build_meta_packet i (data.length / max_payload) tag).map
        (fun m => m ++ ((data.drop (i * max_data)).take max_data)))
        (List.range (data.length / max_payload))).bind
      (fun body => (build_meta_packet (data.length / max_payload) (data.length / max_payload) tag).map
        (fun m => body ++ [m ++ data.drop ((data.length / max_payload) * max_data)]))

/-- The payload slice carried by packet `i` of a message whose last sequence
number is `T`. -/
def chunk (d : List Nat) (T i : Nat) : List Nat :=
  if i < T then (d.drop (i * max_data)).take max_data else d.drop (T * max_data)

/-- The bytes of packet `i` of a message `d` whose last sequence number is
`T`: header (seq_total, seq_num, tag) followed by the payload slice. -/
def mkPkt (T : Nat) (tag d : List Nat) (i : Nat) : List Nat :=
  [T % 256, T / 256] ++ [i % 256, i / 256] ++ tag.take 4 ++ chunk d T i

theorem build_meta_packet_ok {sn st : Nat} (hsn : sn < 65536) (hst : st < 65536)
    (tag : List Nat) :
    build_meta_packet sn st tag
      = some ([st % 256, st / 256] ++ [sn % 256, sn / 256] ++ tag.take 4) := by
  simp [build_meta_packet, packU16, hsn, hst]

/-- Whenever the sequence total fits in 16 bits, `create_packets` produces
exactly the packets `mkPkt T tag d i` for `i = 0..T` where
`T = len(data) / 508`. -/
theorem create_packets_eq_of_lt {d tag : List Nat} (h : d.length / max_payload < 65536) :
    create_packets d tag
      = some ((List.range (d.length / max_payload + 1)).map
          (mkPkt (d.length / max_payload) tag d)) := by
  by_cases hsmall : d.length ≤ max_data
  · have hT : d.length / max_payload = 0 := by
      apply Nat.div_eq_of_lt
      have hlt : max_data < max_payload := by norm_num [max_data, max_payload, metadata_size, mtu]
      omega
    unfold create_packets
    rw [if_pos hsmall, build_meta_packet_ok (by norm_num) (by norm_num), hT]
    simp [mkPkt, chunk, List.range_succ]
  · unfold create_packets
    rw [if_neg hsmall]
    have hbody : optMap (fun i => (build_meta_packet i (d.length / max_payload) tag).map
        (fun m => m ++ ((d.drop (i * max_data)).take max_data)))
        (List.range (d.length / max_payload))
        = some ((List.range (d.length / max_payload)).map (mkPkt (d.length / max_payload) tag d)) := by
      apply optMap_eq_map
      intro i hi
      have hiT : i < d.length / max_payload := List.mem_range.mp hi
      rw [build_meta_packet_ok (show i < 65536 by omega) h]
      simp [mkPkt, chunk, hiT]
    rw [hbody, build_meta_packet_ok h h]
    simp only [Option.some_bind, Option.map_some']
    rw [List.range_succ, List.map_append]
    simp [mkPkt, chunk]

/-- `create_packets` succeeds only when the sequence total fits in 16 bits,
and then produces exactly the packets `mkPkt T tag d i` for `i = 0..T` where
`T = len(data) / 508`. -/
theorem create_packets_eq {d tag : List Nat} {ps : List (List Nat)}
    (h : create_packets d tag = some ps) :
    d.length / max_payload < 65536 ∧
    ps = (List.range (d.length / max_payload + 1)).map (mkPkt (d.length / max_payload) tag d) := by
  have hT16 : d.length / max_payload < 65536 := by
    by_contra hge
    push_neg at hge
    have hsmall : ¬ d.length ≤ max_data := by
      intro hle
      have : d.length / max_payload = 0 := by
        apply Nat.div_eq_of_lt
        have hlt : max_data < max_payload := by norm_num [max_data, max_payload, metadata_size, mtu]
        omega
      omega
    unfold create_packets at h
    rw [if_neg hsmall] at h
    have hTpos : 0 < d.length / max_payload := by omega
    have hmem : 0 ∈ List.range (d.length / max_payload) := List.mem_range.mpr hTpos
    have hfail : (build_meta_packet 0 (d.length / max_payload) tag).map
        (fun m => m ++ ((d.drop (0 * max_data)).take max_data)) = none := by
      simp [build_meta_packet, packU16, Nat.not_lt.mpr hge]
    have hnone : optMap (fun i => (build_meta_packet i (d.length / max_payload) tag).map
        (fun m => m ++ ((d.drop (i * max_data)).take max_data)))
        (List.range (d.length / max_payload)) = none :=
      optMap_none hmem hfail
    rw [hnone] at h
    simp at h
  refine ⟨hT16, ?_⟩
  rw [create_packets_eq_of_lt hT16] at h
  exact (Option.some.inj h).symm

/-!
## Transport state (`Communicator`)

`self.tmp_data` maps a sender address to a dict from tag integer to a
reassembly entry `{'packets': dict, 'seq_total': value}`.  After a message
completes, line 660 of `communicator.py` assigns the *empty dict* `{}` to the
`'seq_total'` slot, so that slot holds either an integer or `{}`; the
constructor `SeqTotalVal.emptyDict` models the latter.  `self.data_store`
maps an address to a dict from tag integer to either bytes or Python `None`
(the consumed marker written by `get`), modelled as an `Option`.
-/

/-- The value stored under the `'seq_total'` key of a reassembly entry. -/
inductive SeqTotalVal : Type
  | val : Nat → SeqTotalVal
  | emptyDict : SeqTotalVal
deriving DecidableEq

/-- One reassembly entry of `self.tmp_data[addr]`. -/
structure TagEntry : Type where
  packets : List (Nat × List Nat)
  seq_total : SeqTotalVal
deriving DecidableEq

/-- The mutable state of a `Communicator` that the receive/get paths touch. -/
structure CommState : Type where
  tmp_data : List (String × List (Nat × TagEntry))
  data_store : List (String × List (Nat × Option (List Nat)))
deriving DecidableEq

/-- A freshly constructed `Communicator`: both stores empty. -/
def CommState.init : CommState := ⟨[], []⟩

/-- Lines 617-618 of `communicator.py`: create the per-address entry of
`tmp_data` if it is missing. -/
def normTmp (addr : String) (tmps : List (String × List (Nat × TagEntry))) :
    List (String × List (Nat × TagEntry)) :=
  if (dictGet addr tmps).isSome then tmps else dictSet addr [] tmps

/-- Lines 626-637 of `communicator.py`: the reassembly entry for the packet's
tag after the create-if-missing step and the seq_total-mismatch reset.  A
missing entry is created as `{'packets': {}, 'seq_total': seq_total}`; an
entry whose stored seq_total differs from the packet's is reset the same
way. -/
def entryAfterReset (inner : List (Nat × TagEntry)) (data_tag seq_total : Nat) : TagEntry :=
  let e0 := (dictGet data_tag inner).getD ⟨[], .val seq_total⟩
  if e0.seq_total ≠ .val seq_total then ⟨[], .val seq_total⟩ else e0

/-- Lines 645-648 of `communicator.py`: `reassembled += packets[i]` for
`i in range(num_packets)`; a missing key raises `KeyError`, modelled by
`none`. -/
def gatherPackets (pkts : List (Nat × List Nat)) : List Nat → Option (List (List Nat))
  | [] => some []
  | i :: rest =>
    match dictGet i pkts, gatherPackets pkts rest with
    | some p, some ps => some (p :: ps)
    | _, _ => none

/-- Model of `Communicator.receive(data, addr)`.  `none` models an exception
escaping `receive` (the header `struct.unpack` calls raise `struct.error`
when fewer than 4 bytes are available, and reassembly can raise `KeyError`);
only `BlockingIOError` is caught by the listen loop, so such an exception
kills the listening thread.  The receive callback is `None` on a fresh
`Communicator` and is not modelled. -/
def receive (st : CommState) (data : List Nat) (addr : String) : Option CommState :=
  let tmps := normTmp addr st.tmp_data
  if data.length < 4 then none
  else
    let seq_total := leValue (data.take 2)
    let seq_num := leValue ((data.drop 2).take 2)
    let data_tag := leValue ((data.drop 4).take 4)
    let dat := data.drop 8
    let inner := (dictGet addr tmps).getD []
    let entry := entryAfterReset inner data_tag seq_total
    let pkts := dictSet seq_num dat entry.packets
    if pkts.length = seq_total + 1 then
      match gatherPackets pkts (List.range pkts.length) with
      | none => none
      | some parts =>
        let storeInner := (dictGet addr st.data_store).getD []
        some ⟨dictSet addr (dictSet data_tag ⟨[], .emptyDict⟩ inner) tmps,
              dictSet addr (dictSet data_tag (some parts.flatten) storeInner) st.data_store⟩
    else
      some ⟨dictSet addr (dictSet data_tag ⟨pkts, .val seq_total⟩ inner) tmps, st.data_store⟩

/-- Model of `Communicator.get(ip_addr, tag)`: destructive read returning the
stored value (which may itself be the consumed marker `None`) and the updated
state. -/
def get (st : CommState) (ip_addr : String) (tag : List Nat) :
    Option (List Nat) × CommState :=
  match dictGet ip_addr st.data_store with
  | none => (none, st)
  | some inner =>
    match dictGet (leValue tag) inner with
    | none => (none, st)
    | some v =>
      (v, ⟨st.tmp_data, dictSet ip_addr (dictSet (leValue tag) none inner) st.data_store⟩)

/-- Deliver a list of datagrams from one sender to the receive path, stopping
with `none` if `receive` raises. -/
def deliverAll (st : CommState) (pkts : List (List Nat)) (addr : String) : Option CommState :=
  match pkts with
  | [] => some st
  | p :: rest =>
    match receive st p addr with
    | none => none
    | some st2 => deliverAll st2 rest addr

/-- Model of the datagram loop of `__run_listen__`: feed queued datagrams to
`receive`; only `BlockingIOError` (never raised by `receive`) is caught, so
the first exception from `receive` terminates the loop.  Returns the
datagrams left unprocessed when the loop ends. -/
def run_listen (st : CommState) : List (List Nat × String) → List (List Nat × String)
  | [] => []
  | (d, a) :: rest =>
    match receive st d a with
    | none => (d, a) :: rest
    | some st2 => run_listen st2 rest

/-!
## Reassembly invariants

The lemmas below track the receive path while the fragments of one message
`d` (fragmented with last sequence number `T`) arrive in an arbitrary order
from one sender.
-/

theorem dictGet_graph_notMem {V : Type} (g : Nat → V) :
    ∀ (s : List Nat) (j : Nat), j ∉ s →
      dictGet j (s.map (fun x => (x, g x))) = none := by
  intro s
  induction s with
  | nil => intro j _; rfl
  | cons x rest ih =>
    intro j hj
    have hx : x ≠ j := fun h => hj (h ▸ List.mem_cons_self x rest)
    have hr : j ∉ rest := fun h => hj (List.mem_cons_of_mem x h)
    simp [dictGet, hx, ih j hr]

theorem dictGet_normTmp (addr : String) (tmps : List (String × List (Nat × TagEntry))) :
    dictGet addr (normTmp addr tmps) = some ((dictGet addr tmps).getD []) := by
  unfold normTmp
  cases h : dictGet addr tmps with
  | none => simp [h, dictGet_dictSet_self]
  | some v => simp [h]

/-- The reassembly entry for a tag can be adopted afresh by the next packet:
either there is no entry, or its stored seq_total differs from the packet's
(this includes the `{}` sentinel written after a completed message). -/
def Resettable (inner : List (Nat × TagEntry)) (tg T : Nat) : Prop :=
  ∀ e, dictGet tg inner = some e → e.seq_total ≠ .val T

theorem entryAfterReset_of_resettable {inner : List (Nat × TagEntry)} {tg T : Nat}
    (h : Resettable inner tg T) : entryAfterReset inner tg T = ⟨[], .val T⟩ := by
  unfold entryAfterReset
  cases he : dictGet tg inner with
  | none => simp
  | some e => simp [h e he]

theorem gatherPackets_graph (g : Nat → List Nat) (pkts : List (Nat × List Nat)) :
    ∀ (l : List Nat), (∀ j ∈ l, dictGet j pkts = some (g j)) →
      gatherPackets pkts l = some (l.map g) := by
  intro l
  induction l with
  | nil => intro _; rfl
  | cons j rest ih =>
    intro h
    have hj := h j (by simp)
    have hr := ih (fun x hx => h x (by simp [hx]))
    simp [gatherPackets, hj, hr]

/-- A nodup list of `n` naturals all below `n` contains every natural below
`n`. -/
theorem mem_of_nodup_length {l : List Nat} {n : Nat} (hnd : l.Nodup)
    (hlt : ∀ x ∈ l, x < n) (hlen : l.length = n) : ∀ j, j < n → j ∈ l := by
  intro j hj
  have hsub : l.toFinset ⊆ Finset.range n := by
    intro x hx
    exact Finset.mem_range.mpr (hlt x (List.mem_toFinset.mp hx))
  have hcard : l.toFinset.card = n := by
    rw [List.toFinset_card_of_nodup hnd, hlen]
  have heq : l.toFinset = Finset.range n :=
    Finset.eq_of_subset_of_card_le hsub (by rw [hcard, Finset.card_range])
  have : j ∈ l.toFinset := heq ▸ Finset.mem_range.mpr hj
  exact List.mem_toFinset.mp this

theorem chunk_take_flatten (d : List Nat) :
    ∀ n : Nat, ((List.range n).map
      (fun i => (d.drop (i * max_data)).take max_data)).flatten = d.take (n * max_data) := by
  intro n
  induction n with
  | zero => simp
  | succ n ih =>
    rw [List.range_succ, List.map_append, List.flatten_append]
    rw [ih]
    simp only [List.map_cons, List.map_nil, List.flatten_cons, List.flatten_nil, List.append_nil]
    have harith : (n + 1) * max_data = n * max_data + max_data := by ring
    rw [harith, List.take_add]

/-- Reassembling the chunks `0..T` in order recovers the original payload,
for any `T`. -/
theorem chunks_flatten (d : List Nat) (T : Nat) :
    ((List.range (T + 1)).map (chunk d T)).flatten = d := by
  rw [List.range_succ, List.map_append, List.flatten_append]
  have hmid : (List.range T).map (chunk d T)
      = (List.range T).map (fun i => (d.drop (i * max_data)).take max_data) := by
    apply List.map_congr_left
    intro i hi
    simp [chunk, List.mem_range.mp hi]
  rw [hmid, chunk_take_flatten]
  simp [chunk, List.take_append_drop]

set_option maxRecDepth 4000 in
theorem mkPkt_parts {tag : List Nat} (htag : tag.length = 4) (T i : Nat) (d : List Nat) :
    (mkPkt T tag d i).take 2 = [T % 256, T / 256] ∧
    ((mkPkt T tag d i).drop 2).take 2 = [i % 256, i / 256] ∧
    ((mkPkt T tag d i).drop 4).take 4 = tag ∧
    (mkPkt T tag d i).drop 8 = chunk d T i ∧
    ¬((mkPkt T tag d i).length < 4) := by
  rcases tag with _ | ⟨t0, tag⟩ <;> try simp at htag
  rcases tag with _ | ⟨t1, tag⟩ <;> try simp at htag
  rcases tag with _ | ⟨t2, tag⟩ <;> try simp at htag
  rcases tag with _ | ⟨t3, tag⟩ <;> try simp at htag
  rcases tag with _ | ⟨t4, tag⟩ <;> try simp at htag
  refine ⟨rfl, rfl, rfl, rfl, ?_⟩
  simp [mkPkt]

theorem leValue_header (n : Nat) : leValue [n % 256, n / 256] = n := by
  simp [leValue, Nat.mod_add_div]

theorem graph_append {V : Type} (g : Nat → V) (s : List Nat) (i : Nat) :
    (s ++ [i]).map (fun x => (x, g x)) = s.map (fun x => (x, g x)) ++ [(i, g i)] := by
  simp

theorem normTmp_dictSet (addr : String) (x : List (Nat × TagEntry))
    (tm : List (String × List (Nat × TagEntry))) :
    normTmp addr (dictSet addr x tm) = dictSet addr x tm := by
  unfold normTmp
  simp [dictGet_dictSet_self]

/-- One `receive` call on packet `i` of the message, in a state where the
reassembly entry for the tag currently holds exactly the chunks indexed by
`seen`. -/
theorem receive_step (T : Nat) {tag : List Nat} (d : List Nat) (htag : tag.length = 4)
    (addr : String) (tmps : List (String × List (Nat × TagEntry)))
    (ds : List (String × List (Nat × Option (List Nat))))
    (inner : List (Nat × TagEntry)) (seen : List Nat) (i : Nat)
    (hinner : dictGet addr (normTmp addr tmps) = some inner)
    (hentry : entryAfterReset inner (leValue tag) T
      = ⟨seen.map (fun j => (j, chunk d T j)), .val T⟩)
    (hfresh : i ∉ seen) :
    receive ⟨tmps, ds⟩ (mkPkt T tag d i) addr =
      if seen.length = T then
        (gatherPackets ((seen ++ [i]).map (fun j => (j, chunk d T j)))
            (List.range (T + 1))).map (fun parts =>
          (⟨dictSet addr (dictSet (leValue tag) ⟨[], .emptyDict⟩ inner) (normTmp addr tmps),
            dictSet addr (dictSet (leValue tag) (some parts.flatten) ((dictGet addr ds).getD []))
              ds⟩ : CommState))
      else
        some ⟨dictSet addr (dictSet (leValue tag)
                ⟨(seen ++ [i]).map (fun j => (j, chunk d T j)), .val T⟩ inner)
              (normTmp addr tmps), ds⟩ := by
  obtain ⟨h1, h2, h3, h4, h5⟩ := mkPkt_parts htag T i d
  have hpkts : dictSet i (chunk d T i) (seen.map (fun j => (j, chunk d T j)))
      = (seen ++ [i]).map (fun j => (j, chunk d T j)) := by
    rw [dictSet_fresh _ (dictGet_graph_notMem (chunk d T) seen i hfresh), graph_append]
  simp only [receive, h1, h2, h3, h4, h5, if_false, leValue_header, hinner,
    Option.getD_some, hentry, hpkts]
  have hlen : ((seen ++ [i]).map (fun j => (j, chunk d T j))).length = seen.length + 1 := by
    simp
  rw [hlen]
  by_cases hc : seen.length = T
  · rw [if_pos (by omega : seen.length + 1 = T + 1), if_pos hc, hc]
    cases gatherPackets ((seen ++ [i]).map (fun j => (j, chunk d T j))) (List.range (T + 1)) with
    | none => rfl
    | some parts => rfl
  · rw [if_neg (by omega : ¬(seen.length + 1 = T + 1)), if_neg hc]

/-- Delivering the remaining fragments (in any order) from a state whose
reassembly entry already holds the chunks indexed by `seen` completes the
message and stores it. -/
theorem deliverAll_mid (T : Nat) {tag : List Nat} (d : List Nat) (htag : tag.length = 4)
    (addr : String) (tmps : List (String × List (Nat × TagEntry)))
    (ds : List (String × List (Nat × Option (List Nat)))) :
    ∀ (rest seen : List Nat), rest ≠ [] →
      (seen ++ rest).Nodup → (∀ x ∈ seen ++ rest, x < T + 1) →
      (seen ++ rest).length = T + 1 →
      deliverAll
        ⟨dictSet addr (dictSet (leValue tag)
            ⟨seen.map (fun j => (j, chunk d T j)), .val T⟩
            ((dictGet addr tmps).getD []))
          (normTmp addr tmps), ds⟩
        (rest.map (mkPkt T tag d)) addr
      = some ⟨dictSet addr (dictSet (leValue tag) ⟨[], .emptyDict⟩
            ((dictGet addr tmps).getD [])) (normTmp addr tmps),
          dictSet addr (dictSet (leValue tag) (some d) ((dictGet addr ds).getD [])) ds⟩ := by
  intro rest
  induction rest with
  | nil => intro seen hne; exact absurd rfl hne
  | cons i rest2 ih =>
    intro seen _ hnd hlt hlen
    set inner0 := (dictGet addr tmps).getD [] with hinner0
    have hfresh : i ∉ seen := by
      rw [List.nodup_append] at hnd
      intro hmem
      exact hnd.2.2 hmem (by simp)
    have hstep := receive_step T d htag addr
      (dictSet addr (dictSet (leValue tag)
        ⟨seen.map (fun j => (j, chunk d T j)), .val T⟩ inner0) (normTmp addr tmps)) ds
      (dictSet (leValue tag) ⟨seen.map (fun j => (j, chunk d T j)), .val T⟩ inner0)
      seen i
      (by rw [normTmp_dictSet, dictGet_dictSet_self])
      (by simp [entryAfterReset, dictGet_dictSet_self])
      hfresh
    by_cases hc : seen.length = T
    · have hrest2 : rest2 = [] := by
        have hl2 := hlen
        simp only [List.length_append, List.length_cons] at hl2
        cases rest2 with
        | nil => rfl
        | cons a b => simp at hl2; omega
      subst hrest2
      have hcover := mem_of_nodup_length hnd hlt (by simpa using hlen)
      have hgather : gatherPackets ((seen ++ [i]).map (fun j => (j, chunk d T j)))
          (List.range (T + 1)) = some ((List.range (T + 1)).map (chunk d T)) := by
        apply gatherPackets_graph
        intro j hj
        exact dictGet_graph (chunk d T) (seen ++ [i]) j (hcover j (List.mem_range.mp hj))
      have hrecv : receive
          ⟨dictSet addr (dictSet (leValue tag)
            ⟨seen.map (fun j => (j, chunk d T j)), .val T⟩ inner0) (normTmp addr tmps), ds⟩
          (mkPkt T tag d i) addr
          = some ⟨dictSet addr (dictSet (leValue tag) ⟨[], .emptyDict⟩ inner0) (normTmp addr tmps),
              dictSet addr (dictSet (leValue tag) (some d) ((dictGet addr ds).getD [])) ds⟩ := by
        rw [hstep, if_pos hc, hgather]
        simp only [Option.map_some']
        rw [chunks_flatten, normTmp_dictSet, dictSet_dictSet, dictSet_dictSet]
      simp only [List.map_cons, List.map_nil, deliverAll, hrecv]
    · have hrest2ne : rest2 ≠ [] := by
        intro hn
        subst hn
        simp only [List.length_append, List.length_cons, List.length_nil] at hlen
        omega
      have hrecv : receive
          ⟨dictSet addr (dictSet (leValue tag)
            ⟨seen.map (fun j => (j, chunk d T j)), .val T⟩ inner0) (normTmp addr tmps), ds⟩
          (mkPkt T tag d i) addr
          = some ⟨dictSet addr (dictSet (leValue tag)
              ⟨(seen ++ [i]).map (fun j => (j, chunk d T j)), .val T⟩ inner0)
              (normTmp addr tmps), ds⟩ := by
        rw [hstep, if_neg hc, normTmp_dictSet, dictSet_dictSet, dictSet_dictSet]
      simp only [List.map_cons, deliverAll, hrecv]
      rw [List.append_cons] at hnd hlt hlen
      exact ih (seen ++ [i]) hrest2ne hnd hlt hlen

/-- Delivering all fragments of a message, in any arrival order, from any
state whose reassembly entry for the tag is absent or reset-pending, stores
the reassembled payload in the data store. -/
theorem deliverAll_roundtrip (T : Nat) {tag : List Nat} (d : List Nat) (htag : tag.length = 4)
    (addr : String) (tmps : List (String × List (Nat × TagEntry)))
    (ds : List (String × List (Nat × Option (List Nat))))
    (hres : Resettable ((dictGet addr tmps).getD []) (leValue tag) T) :
    ∀ il : List Nat, il.Perm (List.range (T + 1)) →
      deliverAll ⟨tmps, ds⟩ (il.map (mkPkt T tag d)) addr
      = some ⟨dictSet addr (dictSet (leValue tag) ⟨[], .emptyDict⟩
            ((dictGet addr tmps).getD [])) (normTmp addr tmps),
          dictSet addr (dictSet (leValue tag) (some d) ((dictGet addr ds).getD [])) ds⟩ := by
  intro il hperm
  have hnd : il.Nodup := hperm.nodup_iff.mpr (List.nodup_range _)
  have hlt : ∀ x ∈ il, x < T + 1 := fun x hx => List.mem_range.mp (hperm.mem_iff.mp hx)
  have hlen : il.length = T + 1 := by rw [hperm.length_eq, List.length_range]
  cases il with
  | nil => simp at hlen
  | cons i0 il2 =>
    set inner0 := (dictGet addr tmps).getD [] with hinner0
    have hinner : dictGet addr (normTmp addr tmps) = some inner0 := dictGet_normTmp addr tmps
    have hstep := receive_step T d htag addr tmps ds inner0 [] i0
      hinner
      (by rw [entryAfterReset_of_resettable hres]; simp)
      (List.not_mem_nil i0)
    by_cases hT0 : T = 0
    · subst hT0
      have hil2 : il2 = [] := by
        simp only [List.length_cons] at hlen
        cases il2 with
        | nil => rfl
        | cons a b => simp at hlen
      subst hil2
      have hi0 : i0 = 0 := by
        have := hlt i0 (by simp)
        omega
      subst hi0
      have hgather : gatherPackets ((([] : List Nat) ++ [0]).map (fun j => (j, chunk d 0 j)))
          (List.range (0 + 1)) = some ((List.range (0 + 1)).map (chunk d 0)) := by
        apply gatherPackets_graph
        intro j hj
        have hj1 : j = 0 := by
          have := List.mem_range.mp hj
          omega
        subst hj1
        exact dictGet_graph (chunk d 0) ([] ++ [0]) 0 (by simp)
      have hrecv : receive ⟨tmps, ds⟩ (mkPkt 0 tag d 0) addr
          = some ⟨dictSet addr (dictSet (leValue tag) ⟨[], .emptyDict⟩ inner0) (normTmp addr tmps),
              dictSet addr (dictSet (leValue tag) (some d) ((dictGet addr ds).getD [])) ds⟩ := by
        rw [hstep, if_pos (show ([] : List Nat).length = 0 from rfl), hgather]
        simp only [Option.map_some']
        rw [chunks_flatten]
      simp only [List.map_cons, List.map_nil, deliverAll, hrecv]
    · have hil2ne : il2 ≠ [] := by
        intro hn
        subst hn
        simp only [List.length_cons, List.length_nil] at hlen
        omega
      have hrecv : receive ⟨tmps, ds⟩ (mkPkt T tag d i0) addr
          = some ⟨dictSet addr (dictSet (leValue tag)
              ⟨[i0].map (fun j => (j, chunk d T j)), .val T⟩ inner0)
              (normTmp addr tmps), ds⟩ := by
        rw [hstep, if_neg (by simpa using fun h => hT0 h.symm)]
        simp
      simp only [List.map_cons, deliverAll, hrecv]
      exact deliverAll_mid T d htag addr tmps ds il2 [i0] hil2ne
        (by simpa using hnd) (by simpa using hlt) (by simpa using hlen)

/-- A permutation of a mapped list is the image of a permutation. -/
theorem exists_of_perm_map {α β : Type} (f : α → β) {l1 l2 : List β} (h : l1.Perm l2) :
    ∀ la : List α, l2 = la.map f →
      ∃ l0 : List α, List.Perm l0 la ∧ l1 = List.map f l0 := by
  induction h with
  | nil =>
    intro la hla
    have : la = [] := by
      cases la with
      | nil => rfl
      | cons a l => simp at hla
    subst this
    exact ⟨[], List.Perm.refl [], rfl⟩
  | cons x hp ih =>
    intro la hla
    cases la with
    | nil => simp at hla
    | cons a la2 =>
      simp only [List.map_cons, List.cons.injEq] at hla
      obtain ⟨hfa, hmap⟩ := hla
      obtain ⟨l0, hperm, heq⟩ := ih la2 hmap
      exact ⟨a :: l0, hperm.cons a, by simp [heq, hfa]⟩
  | swap x y l =>
    intro la hla
    cases la with
    | nil => simp at hla
    | cons a la2 =>
      cases la2 with
      | nil => simp at hla
      | cons b la3 =>
        simp only [List.map_cons, List.cons.injEq] at hla
        obtain ⟨hfa, hfb, hmap⟩ := hla
        exact ⟨b :: a :: la3, List.Perm.swap a b la3, by simp [hfa, hfb, hmap]⟩
  | trans h1 h2 ih1 ih2 =>
    intro la hla
    obtain ⟨m, hm, hmeq⟩ := ih2 la hla
    obtain ⟨k, hk, hkeq⟩ := ih1 m hmeq
    exact ⟨k, hk.trans hm, hkeq⟩

/-- Reading a freshly stored message: `get` returns the payload and marks the
slot consumed (`None`). -/
theorem get_stored (tmpd : List (String × List (Nat × TagEntry))) (addr : String)
    (tag : List Nat) (inner : List (Nat × Option (List Nat)))
    (ds : List (String × List (Nat × Option (List Nat)))) (d : List Nat) :
    get ⟨tmpd, dictSet addr (dictSet (leValue tag) (some d) inner) ds⟩ addr tag
      = (some d, ⟨tmpd, dictSet addr (dictSet (leValue tag) none inner) ds⟩) := by
  simp [get, dictGet_dictSet_self, dictSet_dictSet]

/-- C1: Fragmentation round-trip.  For every payload `d` whose fragmentation
succeeds and every 4-byte tag, delivering all packets of
`create_packets d tag` to the receive path from one sender address, in any
arrival order, stores a completed message such that `get addr tag` returns
exactly `d`. -/
theorem C1_fragmentation_roundtrip {d tag : List Nat} (htag : tag.length = 4)
    {ps l : List (List Nat)} (hps : create_packets d tag = some ps)
    (hperm : l.Perm ps) (addr : String) :
    (deliverAll CommState.init l addr).map (fun st => (get st addr tag).1)
      = some (some d) := by
  obtain ⟨hT16, hpseq⟩ := create_packets_eq hps
  subst hpseq
  obtain ⟨il, hil, rfl⟩ := exists_of_perm_map (mkPkt (d.length / max_payload) tag d) hperm
    (List.range (d.length / max_payload + 1)) rfl
  rw [show CommState.init = (⟨[], []⟩ : CommState) from rfl]
  rw [deliverAll_roundtrip (d.length / max_payload) d htag addr [] []
    (fun e he => by simp [dictGet] at he) il hil]
  simp only [Option.map_some']
  rw [get_stored]

/-- C1 witness: a concrete two-byte payload with a concrete 4-byte tag. -/
theorem C1_witness :
    (deliverAll CommState.init [[0, 0, 0, 0, 1, 2, 3, 4, 7, 8]] "A").map
        (fun st => (get st "A" [1, 2, 3, 4]).1) = some (some [7, 8]) :=
  @C1_fragmentation_roundtrip [7, 8] [1, 2, 3, 4] (by decide)
    [[0, 0, 0, 0, 1, 2, 3, 4, 7, 8]] [[0, 0, 0, 0, 1, 2, 3, 4, 7, 8]]
    (by rfl) (List.Perm.refl _) "A"

/-- C2: Destructive read.  When the data store holds payload `d` for
`(addr, tag)` — the state `receive` writes after completing reassembly — the
first `get` returns `d` and an immediately following second `get` for the
same key returns the absent marker `None`, with no new data in between. -/
theorem C2_destructive_get {st : CommState} {addr : String} {tag : List Nat}
    {inner : List (Nat × Option (List Nat))} {d : List Nat}
    (h1 : dictGet addr st.data_store = some inner)
    (h2 : dictGet (leValue tag) inner = some (some d)) :
    (get st addr tag).1 = some d ∧ (get (get st addr tag).2 addr tag).1 = none := by
  constructor
  · simp [get, h1, h2]
  · simp [get, h1, h2, dictGet_dictSet_self]

/-- C2 witness: concrete store holding a completed message. -/
theorem C2_witness :
    (get ⟨[], [("A", [(1, some [5, 6])])]⟩ "A" [1, 0, 0, 0]).1 = some [5, 6] ∧
    (get (get ⟨[], [("A", [(1, some [5, 6])])]⟩ "A" [1, 0, 0, 0]).2 "A" [1, 0, 0, 0]).1
      = none :=
  @C2_destructive_get ⟨[], [("A", [(1, some [5, 6])])]⟩ "A" [1, 0, 0, 0]
    [(1, some [5, 6])] [5, 6] (by decide) (by decide)

/-- The reassembly entry left behind by a completed message (packet map
emptied, seq_total set to the `{}` sentinel) lets any later message under the
same tag restart reassembly. -/
theorem resettable_after_complete {T : Nat} (addr : String) (tg : Nat)
    (inner : List (Nat × TagEntry)) (tm : List (String × List (Nat × TagEntry))) :
    Resettable ((dictGet addr (dictSet addr (dictSet tg ⟨[], .emptyDict⟩ inner) tm)).getD [])
      tg T := by
  intro e he
  rw [dictGet_dictSet_self] at he
  rw [Option.getD_some] at he
  rw [dictGet_dictSet_self] at he
  cases he
  simp

/-- C10: Tag reuse after consumption.  After a stored message is consumed by
a destructive `get`, delivering a complete fragment set for a new message
under the same `(address, tag)` stores the new message, and a subsequent
`get` returns the new message's bytes. -/
theorem C10_tag_reuse {d1 d2 tag : List Nat} (htag : tag.length = 4)
    {ps1 ps2 l1 l2 : List (List Nat)}
    (hps1 : create_packets d1 tag = some ps1) (hps2 : create_packets d2 tag = some ps2)
    (hl1 : l1.Perm ps1) (hl2 : l2.Perm ps2) (addr : String) :
    ((deliverAll CommState.init l1 addr).bind (fun stA =>
      (deliverAll (get stA addr tag).2 l2 addr).map (fun stB =>
        ((get stA addr tag).1, (get stB addr tag).1))))
      = some (some d1, some d2) := by
  obtain ⟨hT1, hps1eq⟩ := create_packets_eq hps1
  obtain ⟨hT2, hps2eq⟩ := create_packets_eq hps2
  subst hps1eq
  subst hps2eq
  obtain ⟨il1, hil1, rfl⟩ := exists_of_perm_map (mkPkt (d1.length / max_payload) tag d1) hl1
    (List.range (d1.length / max_payload + 1)) rfl
  obtain ⟨il2, hil2, rfl⟩ := exists_of_perm_map (mkPkt (d2.length / max_payload) tag d2) hl2
    (List.range (d2.length / max_payload + 1)) rfl
  rw [show CommState.init = (⟨[], []⟩ : CommState) from rfl]
  rw [deliverAll_roundtrip (d1.length / max_payload) d1 htag addr [] []
    (fun e he => by simp [dictGet] at he) il1 hil1]
  simp only [Option.some_bind]
  rw [get_stored]
  rw [deliverAll_roundtrip (d2.length / max_payload) d2 htag addr
    (dictSet addr (dictSet (leValue tag) ⟨[], .emptyDict⟩
      ((dictGet addr ([] : List (String × List (Nat × TagEntry)))).getD []))
      (normTmp addr []))
    (dictSet addr (dictSet (leValue tag) none
      ((dictGet addr ([] : List (String × List (Nat × Option (List Nat))))).getD [])) [])
    (resettable_after_complete addr (leValue tag)
      ((dictGet addr ([] : List (String × List (Nat × TagEntry)))).getD [])
      (normTmp addr []))
    il2 hil2]
  simp only [Option.map_some']
  rw [get_stored]

/-- C10 witness: two concrete single-packet messages under the same tag. -/
theorem C10_witness :
    ((deliverAll CommState.init [[0, 0, 0, 0, 1, 2, 3, 4, 7]] "A").bind (fun stA =>
      (deliverAll (get stA "A" [1, 2, 3, 4]).2 [[0, 0, 0, 0, 1, 2, 3, 4, 8, 9]] "A").map
        (fun stB => ((get stA "A" [1, 2, 3, 4]).1, (get stB "A" [1, 2, 3, 4]).1))))
      = some (some [7], some [8, 9]) :=
  @C10_tag_reuse [7] [8, 9] [1, 2, 3, 4] (by decide)
    [[0, 0, 0, 0, 1, 2, 3, 4, 7]] [[0, 0, 0, 0, 1, 2, 3, 4, 8, 9]]
    [[0, 0, 0, 0, 1, 2, 3, 4, 7]] [[0, 0, 0, 0, 1, 2, 3, 4, 8, 9]]
    (by rfl) (by rfl) (List.Perm.refl _) (List.Perm.refl _) "A"

/-- C3 counterexample: a one-byte datagram makes the header decode of
`receive` raise `struct.error`; the listen loop catches only
`BlockingIOError`, so the loop terminates and the following well-formed
datagram is never processed — the claim says the packet is logged, dropped
and the loop continues. -/
theorem C3_cex :
    run_listen CommState.init [([0], "A"), ([0, 0, 0, 0, 0, 0, 0, 0], "A")]
      = [([0], "A"), ([0, 0, 0, 0, 0, 0, 0, 0], "A")] := by
  rfl

/-- C3 (amended): the receive path raises on every datagram shorter than the
4 bytes consumed by the two header `struct.unpack` calls, and because the
listen loop catches only `BlockingIOError`, that exception terminates the
loop, leaving the malformed datagram and every subsequent datagram
unprocessed; when `receive` does not raise, the loop continues with the next
datagram. -/
theorem C3_malformed_terminates_loop :
    (∀ (st : CommState) (data : List Nat) (addr : String),
      data.length < 4 → receive st data addr = none) ∧
    (∀ (st : CommState) (d : List Nat) (a : String) (rest : List (List Nat × String)),
      receive st d a = none → run_listen st ((d, a) :: rest) = (d, a) :: rest) ∧
    (∀ (st st2 : CommState) (d : List Nat) (a : String) (rest : List (List Nat × String)),
      receive st d a = some st2 → run_listen st ((d, a) :: rest) = run_listen st2 rest) := by
  refine ⟨?_, ?_, ?_⟩
  · intro st data addr h
    simp [receive, h]
  · intro st d a rest h
    simp [run_listen, h]
  · intro st st2 d a rest h
    simp [run_listen, h]

/-- C3 witness: the short-datagram and loop-termination parts at a concrete
input. -/
theorem C3_witness :
    receive CommState.init [0] "A" = none ∧
    run_listen CommState.init [([0], "A"), ([9], "B")] = [([0], "A"), ([9], "B")] :=
  ⟨C3_malformed_terminates_loop.1 CommState.init [0] "A" (by decide),
   C3_malformed_terminates_loop.2.1 CommState.init [0] "A" [([9], "B")]
     (C3_malformed_terminates_loop.1 CommState.init [0] "A" (by decide))⟩

/-- C4 counterexample: a 501-byte payload is claimed to yield
ceil(501 / maxChunk) = 2 packets (maxChunk = 500 = max_data), but
`create_packets` emits exactly one packet, because the chunk count is
computed from the unreduced bound 508. -/
theorem C4_cex :
    (create_packets (List.replicate 501 9) [1, 2, 3, 4]).map List.length = some 1 ∧
    (501 + max_data - 1) / max_data = 2 := by
  constructor
  · rw [create_packets_eq_of_lt (by norm_num [max_payload, mtu])]
    simp only [Option.map_some', List.length_map, List.length_range, List.length_replicate,
      Option.some.injEq]
    norm_num [max_payload, mtu]
  · norm_num [max_data, max_payload, metadata_size, mtu]

/-- C4 (amended): `create_packets d tag` emits exactly
`len(d) / 508 + 1` packets — which equals ceil(len(d)/500) only for some
lengths — and when `len(d) ≤ 500` the single packet has
seqTotal = seqNum = 0 and carries `d` whole. -/
theorem C4_packet_count {d tag : List Nat} {ps : List (List Nat)}
    (hps : create_packets d tag = some ps) :
    ps.length = d.length / max_payload + 1 ∧
    (d.length ≤ max_data → ps = [[0, 0, 0, 0] ++ tag.take 4 ++ d]) := by
  obtain ⟨hT, hpseq⟩ := create_packets_eq hps
  subst hpseq
  constructor
  · simp
  · intro hsmall
    have hT0 : d.length / max_payload = 0 := by
      apply Nat.div_eq_of_lt
      have hlt : max_data < max_payload := by norm_num [max_data, max_payload, metadata_size, mtu]
      omega
    rw [hT0]
    simp [mkPkt, chunk, List.range_succ]

/-- C4 witness: the 2640-byte payload of the source test (the byte encoding
of the integer list 0..549) yields exactly 6 packets. -/
theorem C4_witness :
    (create_packets (List.replicate 2640 9) [1, 2, 3, 4]).map List.length = some 6 := by
  have hps := @create_packets_eq_of_lt (List.replicate 2640 9) [1, 2, 3, 4]
    (by norm_num [max_payload, mtu])
  have hl := (C4_packet_count hps).1
  rw [hps]
  simp only [Option.map_some']
  rw [hl]
  simp only [List.length_replicate]
  norm_num [max_payload, mtu]

/-- C5 counterexample: the smallest violating payload is 501 bytes, whose
single emitted packet is 509 bytes; a 1001-byte payload yields packets of
sizes 508 and 509 — in both cases a packet exceeds the 508-byte MTU-derived
budget. -/
theorem C5_cex :
    (create_packets (List.replicate 501 7) [1, 2, 3, 4]).map (List.map List.length)
      = some [509] ∧
    (create_packets (List.replicate 1001 9) [1, 2, 3, 4]).map (List.map List.length)
      = some [508, 509] ∧ ¬(509 ≤ 508) := by
  refine ⟨?_, ?_, by decide⟩
  · rw [create_packets_eq_of_lt (by norm_num [max_payload, mtu])]
    simp only [Option.map_some', Option.some.injEq]
    have hT : (List.replicate 501 7).length / max_payload = 0 := by
      norm_num [max_payload, mtu]
    rw [hT, show List.range (0 + 1) = [0] from rfl]
    have htg4 : ((([1, 2, 3, 4] : List Nat)).take 4).length = 4 := rfl
    have hch : (chunk (List.replicate 501 7) 0 0).length = 501 := by
      simp only [chunk]
      rw [if_neg (show ¬((0 : Nat) < 0) from by norm_num)]
      simp only [List.length_drop, List.length_replicate, Nat.zero_mul, Nat.sub_zero]
    simp only [List.map_cons, List.map_nil, mkPkt, List.length_append, List.length_cons,
      List.length_nil, htg4, hch]
  · rw [create_packets_eq_of_lt (by norm_num [max_payload, mtu])]
    simp only [Option.map_some', Option.some.injEq]
    have hT : (List.replicate 1001 9).length / max_payload = 1 := by
      norm_num [max_payload, mtu]
    rw [hT, show List.range (1 + 1) = [0, 1] from rfl]
    have htag4 : ((([1, 2, 3, 4] : List Nat)).take 4).length = 4 := rfl
    have hch0 : (chunk (List.replicate 1001 9) 1 0).length = 500 := by
      simp only [chunk]
      rw [if_pos (show (0 : Nat) < 1 from by norm_num)]
      simp only [List.length_take, List.length_drop, List.length_replicate]
      norm_num [max_data, max_payload, metadata_size, mtu]
    have hch1 : (chunk (List.replicate 1001 9) 1 1).length = 501 := by
      simp only [chunk]
      rw [if_neg (show ¬((1 : Nat) < 1) from by norm_num)]
      simp only [List.length_drop, List.length_replicate]
      norm_num [max_data, max_payload, metadata_size, mtu]
    simp only [List.map_cons, List.map_nil, mkPkt, List.length_append, List.length_cons,
      List.length_nil, htag4, hch0, hch1]

/-- C5 (amended): every packet except the last is exactly 508 bytes (the
budget); the last packet of the emitted sequence is the remainder packet, of
size 8 + (len(d) − 500·⌊len(d)/508⌋), and it exceeds the 508-byte budget
exactly when len(d) > 500·(⌊len(d)/508⌋ + 1); for len(d) ≤ 500 the single
packet fits the budget, so the smallest violating length is 501 (a single
509-byte packet, see the counterexample). -/
theorem C5_mtu_bound {d tag : List Nat} (htag : tag.length = 4)
    {ps : List (List Nat)} (hps : create_packets d tag = some ps) :
    (∀ p ∈ ps.dropLast, p.length = max_payload) ∧
    ps.getLast? = some (mkPkt (d.length / max_payload) tag d (d.length / max_payload)) ∧
    (mkPkt (d.length / max_payload) tag d (d.length / max_payload)).length
      = metadata_size + (d.length - d.length / max_payload * max_data) ∧
    (d.length ≤ max_data → ∀ p ∈ ps, p.length ≤ max_payload) ∧
    (max_payload < (mkPkt (d.length / max_payload) tag d (d.length / max_payload)).length
      ↔ max_data * (d.length / max_payload + 1) < d.length) := by
  obtain ⟨hT, hpseq⟩ := create_packets_eq hps
  subst hpseq
  have htake : (tag.take 4).length = 4 := by
    simp [List.length_take, htag]
  have hchunkT : (chunk d (d.length / max_payload) (d.length / max_payload)).length
      = d.length - d.length / max_payload * max_data := by
    simp [chunk]
  have hlast : (mkPkt (d.length / max_payload) tag d (d.length / max_payload)).length
      = metadata_size + (d.length - d.length / max_payload * max_data) := by
    simp only [mkPkt, List.length_append, List.length_cons, List.length_nil, htake, hchunkT,
      metadata_size]
  refine ⟨?_, ?_, hlast, ?_, ?_⟩
  · intro p hp
    simp only [List.range_succ, List.map_append, List.map_cons, List.map_nil] at hp
    rw [List.dropLast_concat] at hp
    obtain ⟨i, hi, rfl⟩ := List.mem_map.mp hp
    have hiT : i < d.length / max_payload := List.mem_range.mp hi
    have hbound : i * max_data + max_data ≤ d.length := by
      have h1 : (i + 1) * max_data ≤ (d.length / max_payload) * max_data := by
        apply Nat.mul_le_mul_right
        omega
      have h2 : (d.length / max_payload) * max_data ≤ (d.length / max_payload) * max_payload := by
        apply Nat.mul_le_mul_left
        norm_num [max_data, max_payload, metadata_size, mtu]
      have h3 : (d.length / max_payload) * max_payload ≤ d.length := Nat.div_mul_le_self _ _
      have h4 : i * max_data + max_data = (i + 1) * max_data := by ring
      omega
    have hchunki : (chunk d (d.length / max_payload) i).length = max_data := by
      simp only [chunk, hiT, if_true, List.length_take, List.length_drop]
      omega
    simp only [mkPkt, List.length_append, List.length_cons, List.length_nil, htake, hchunki]
    have hm1 : max_payload = 508 := by norm_num [max_payload, mtu]
    have hm2 : max_data = 500 := by norm_num [max_data, max_payload, metadata_size, mtu]
    omega
  · simp only [List.range_succ, List.map_append, List.map_cons, List.map_nil]
    simp
  · intro hsmall p hp
    have hT0 : d.length / max_payload = 0 := by
      apply Nat.div_eq_of_lt
      have hlt : max_data < max_payload := by norm_num [max_data, max_payload, metadata_size, mtu]
      omega
    rw [hT0] at hp
    simp only [List.range_succ, List.range_zero, List.nil_append, List.map_cons, List.map_nil,
      List.mem_singleton] at hp
    subst hp
    have h1 : (chunk d 0 0).length = d.length := by
      simp [chunk]
    simp only [mkPkt, List.length_append, List.length_cons, List.length_nil, htake, h1]
    have hm1 : max_payload = 508 := by norm_num [max_payload, mtu]
    have hm2 : max_data = 500 := by norm_num [max_data, max_payload, metadata_size, mtu]
    omega
  · rw [hlast]
    have h3 : d.length / max_payload * max_payload ≤ d.length := Nat.div_mul_le_self _ _
    have hm1 : max_payload = 508 := by norm_num [max_payload, mtu]
    have hm2 : max_data = 500 := by norm_num [max_data, max_payload, metadata_size, mtu]
    have hmeta : metadata_size = 8 := by norm_num [metadata_size]
    rw [hm1, hm2, hmeta]
    rw [hm1] at h3
    omega

/-- C5 witness: the remainder-packet size formula at the 1001-byte
counterexample payload. -/
theorem C5_witness :
    (mkPkt ((List.replicate 1001 9).length / max_payload) [1, 2, 3, 4]
        (List.replicate 1001 9) ((List.replicate 1001 9).length / max_payload)).length
      = metadata_size + ((List.replicate 1001 9).length
          - (List.replicate 1001 9).length / max_payload * max_data) := by
  exact (C5_mtu_bound (by decide)
    (create_packets_eq_of_lt (by norm_num [max_payload, mtu]))).2.2.1

/-!
## UDP send (`Communicator.send`)
-/

/-- Outcome of one `socket.sendto` call: a byte count, or an `OSError`. -/
inductive SendOutcome : Type
  | sent : Int → SendOutcome
  | osError : SendOutcome

/-- Model of the packet loop of `Communicator.send` (lines 487-497): a
negative byte count sets the return flag false and continues; an `OSError`
sets it false and `break`s.  Returns the flag and the number of `sendto`
calls attempted. -/
def send_loop (net : Nat → SendOutcome) : List (List Nat) → Nat → Bool → Bool × Nat
  | [], k, ret => (ret, k)
  | _ :: rest, k, ret =>
    match net k with
    | .sent n => send_loop net rest (k + 1) (if n < 0 then false else ret)
    | .osError => (false, k + 1)

/-- Model of `Communicator.send`: fragment the data, then attempt each
packet in order against the `sendto` oracle `net`.  The source first checks
`self.is_open` and raises `BrokenPipeError` on a closed communicator; this
model covers only the open case (the packet loop), so that check is not
represented. -/
def send (data tag : List Nat) (net : Nat → SendOutcome) : Option (Bool × Nat) :=
  (create_packets data tag).map (fun ps => send_loop net ps 0 true)

theorem send_loop_all_sent {net : Nat → SendOutcome} {n : Nat → Int}
    (h : ∀ k, net k = .sent (n k)) :
    ∀ (ps : List (List Nat)) (k : Nat) (ret : Bool),
      send_loop net ps k ret
        = (ret && decide (∀ j, j < ps.length → 0 ≤ n (k + j)), k + ps.length) := by
  intro ps
  induction ps with
  | nil =>
    intro k ret
    simp [send_loop]
  | cons p rest ih =>
    intro k ret
    simp only [send_loop, h k]
    rw [ih (k + 1)]
    refine Prod.ext ?_ (by simp; omega)
    by_cases hneg : n k < 0
    · have hnot : ¬(∀ j, j < rest.length + 1 → 0 ≤ n (k + j)) := by
        intro hall
        have := hall 0 (by omega)
        simp at this
        omega
      simp [hneg, hnot]
    · simp only [if_neg hneg]
      have hd : decide (∀ j, j < rest.length → 0 ≤ n (k + 1 + j))
          = decide (∀ j, j < (p :: rest).length → 0 ≤ n (k + j)) := by
        apply decide_eq_decide.mpr
        constructor
        · intro ha j hj
          cases j with
          | zero =>
            simpa using Int.not_lt.mp hneg
          | succ m =>
            have hm := ha m (by simp at hj; omega)
            rw [show k + 1 + m = k + (m + 1) from by omega] at hm
            exact hm
        · intro hb j hj
          have := hb (j + 1) (by simp; omega)
          rw [show k + (j + 1) = k + 1 + j from by omega] at this
          exact this
      rw [hd]

theorem send_loop_oserror {net : Nat → SendOutcome} :
    ∀ (ps : List (List Nat)) (k : Nat) (ret : Bool) (j : Nat),
      j < ps.length → net (k + j) = .osError →
      (∀ m, m < j → ∃ v, net (k + m) = .sent v) →
      send_loop net ps k ret = (false, k + j + 1) := by
  intro ps
  induction ps with
  | nil =>
    intro k ret j hj
    simp at hj
  | cons p rest ih =>
    intro k ret j hj herr hpre
    cases j with
    | zero =>
      simp only [Nat.add_zero] at herr
      simp [send_loop, herr]
    | succ m =>
      obtain ⟨v, hv⟩ := hpre 0 (by omega)
      simp only [Nat.add_zero] at hv
      simp only [send_loop, hv]
      have := ih (k + 1) (if v < 0 then false else ret) m (by simp at hj; omega)
        (by rw [show k + 1 + m = k + (m + 1) from by omega]; exact herr)
        (fun m2 hm2 => by
          obtain ⟨w, hw⟩ := hpre (m2 + 1) (by omega)
          exact ⟨w, by rw [show k + 1 + m2 = k + (m2 + 1) from by omega]; exact hw⟩)
      rw [this]
      refine Prod.ext rfl (by simp; omega)

/-- C6 counterexample: for the two-packet message of a 1001-byte payload, an
`OSError` on the first fragment makes `send` return false after attempting
only 1 of the 2 fragments — the `break` aborts the fragment stream, contrary
to the claim that every remaining fragment is still attempted. -/
theorem C6_cex :
    send (List.replicate 1001 9) [1, 2, 3, 4] (fun _ => .osError) = some (false, 1) ∧
    (create_packets (List.replicate 1001 9) [1, 2, 3, 4]).map List.length = some 2 := by
  constructor
  · unfold send
    rw [create_packets_eq_of_lt (by norm_num [max_payload, mtu])]
    simp only [Option.map_some', Option.some.injEq]
    have hT : (List.replicate 1001 9).length / max_payload = 1 := by
      norm_num [max_payload, mtu]
    rw [hT, show List.range (1 + 1) = [0, 1] from rfl]
    rw [send_loop_oserror _ 0 true 0
      (by simp only [List.length_map, List.length_cons, List.length_nil]; omega)
      rfl (fun m hm => absurd hm (by omega))]
  · rw [create_packets_eq_of_lt (by norm_num [max_payload, mtu])]
    simp only [Option.map_some', List.length_map, List.length_range, List.length_replicate,
      Option.some.injEq]
    norm_num [max_payload, mtu]

/-- C6 (amended): when no `sendto` call raises `OSError`, `send` attempts
every fragment and returns false exactly when some call reports a negative
byte count (continuing through the remaining fragments); but on the first
`OSError` it returns false having attempted only the fragments up to and
including the failing one. -/
theorem C6_send_partial_failure :
    (∀ (data tag : List Nat) (ps : List (List Nat)) (net : Nat → SendOutcome) (n : Nat → Int),
      create_packets data tag = some ps →
      (∀ k, net k = .sent (n k)) →
      send data tag net
        = some (decide (∀ j, j < ps.length → 0 ≤ n j), ps.length)) ∧
    (∀ (data tag : List Nat) (ps : List (List Nat)) (net : Nat → SendOutcome) (j : Nat),
      create_packets data tag = some ps →
      j < ps.length → net j = .osError →
      (∀ m, m < j → ∃ v, net m = .sent v) →
      send data tag net = some (false, j + 1)) := by
  constructor
  · intro data tag ps net n hps hnet
    unfold send
    rw [hps]
    simp only [Option.map_some']
    rw [send_loop_all_sent hnet ps 0 true]
    simp
  · intro data tag ps net j hps hj herr hpre
    unfold send
    rw [hps]
    simp only [Option.map_some']
    rw [send_loop_oserror ps 0 true j hj (by simpa using herr)
      (fun m hm => by simpa using hpre m hm)]
    simp

/-- C6 witness: a negative-byte-count run attempting all fragments, and an
`OSError` on the second of two fragments stopping after it. -/
theorem C6_witness :
    send [7] [1, 2, 3, 4] (fun _ => .sent 5) = some (true, 1) ∧
    send (List.replicate 1001 9) [1, 2, 3, 4]
        (fun k => if k = 0 then .sent 3 else .osError) = some (false, 2) := by
  constructor
  · rw [C6_send_partial_failure.1 [7] [1, 2, 3, 4] [[0, 0, 0, 0, 1, 2, 3, 4, 7]] _
      (fun _ => 5) rfl (fun k => rfl)]
    decide
  · have hps := @create_packets_eq_of_lt (List.replicate 1001 9) [1, 2, 3, 4]
      (by norm_num [max_payload, mtu])
    have hlen : ((List.range ((List.replicate 1001 9).length / max_payload + 1)).map
        (mkPkt ((List.replicate 1001 9).length / max_payload) [1, 2, 3, 4]
          (List.replicate 1001 9))).length = 2 := by
      simp only [List.length_map, List.length_range, List.length_replicate]
      norm_num [max_payload, mtu]
    exact C6_send_partial_failure.2 (List.replicate 1001 9) [1, 2, 3, 4] _ _ 1 hps
      (by rw [hlen]; omega) rfl
      (fun m hm => ⟨3, by simp [show m = 0 from by omega]⟩)

/-!
## Tag construction (`build_tag` in `adac/consensus/iterative.py`)
-/

/-- Model of `num.to_bytes(len, byteorder='little')`: `len` little-endian
bytes, or `none` (an `OverflowError`) when `num` needs more than `len`
bytes. -/
def toBytesLE (len num : Nat) : Option (List Nat) :=
  if num < 256 ^ len then some ((List.range len).map (fun i => num / 256 ^ i % 256)) else none

/-- Fuelled computation of `⌊log2 n⌋` (kernel-reducible; the fuel `n` always
suffices since `⌊log2 n⌋ < n`). -/
def log2fuel : Nat → Nat → Nat
  | 0, _ => 0
  | fuel + 1, n => if n ≥ 2 then log2fuel fuel (n / 2) + 1 else 0

/-- `⌊log2 n⌋`, as a kernel-reducible function. -/
def pyLog2 (n : Nat) : Nat := log2fuel n n

theorem log2fuel_eq_log2 : ∀ (fuel n : Nat), n ≤ fuel → log2fuel fuel n = Nat.log2 n := by
  intro fuel
  induction fuel with
  | zero =>
    intro n hn
    have hz : n = 0 := by omega
    subst hz
    simp [log2fuel, Nat.log2]
  | succ f ih =>
    intro n hn
    rw [Nat.log2]
    by_cases h2 : n ≥ 2
    · simp only [log2fuel, if_pos h2]
      rw [ih (n / 2) (by omega)]
    · simp only [log2fuel, if_neg h2]

/-- The fuelled log agrees with `Nat.log2` everywhere. -/
theorem pyLog2_eq_log2 (n : Nat) : pyLog2 n = Nat.log2 n :=
  log2fuel_eq_log2 n n le_rfl

/-- The byte count `bts = math.ceil(math.log(num, 2) / 8)` computed by
`build_tag` for `num > 0`, modelling the floating-point `math.log` as the
exact real logarithm.  For `num = 2 ^ e` exactly, `log2 num / 8 = e / 8`
whose ceiling is `(e + 7) / 8` in integer arithmetic; otherwise
`log2 num` lies strictly between `e = ⌊log2 num⌋` and `e + 1`, and the open
interval `(e / 8, (e + 1) / 8)` contains no integer, so the ceiling is
`e / 8 + 1`. -/
def ceilLog2Div8 (num : Nat) : Nat :=
  if 2 ^ pyLog2 num = num then (pyLog2 num + 7) / 8 else pyLog2 num / 8 + 1

/-- Model of `build_tag(tag_id, num)` from `iterative.py`: one byte
`tag_id % 256`, followed by the first 3 bytes of
`num.to_bytes(bts, 'little')` where `bts = max(3, ceil(log2(num) / 8))`
(and `bts = 3` when `num = 0`). -/
def build_tag (tag_id num : Nat) : Option (List Nat) :=
  (toBytesLE (max 3 (if num > 0 then ceilLog2Div8 num else 3)) num).map
    (fun nb => tag_id % 256 :: nb.take 3)

/-- C7 counterexample: at `num = 2 ^ 24` the byte-width computation
`ceil(log2(num) / 8)` yields 3, but `2 ^ 24` needs 4 bytes, so
`num.to_bytes` raises `OverflowError` instead of returning a tag. -/
theorem C7_cex : build_tag 1 (2 ^ 24) = none := by decide

theorem digit_mod_pow24 (num : Nat) :
    ∀ i, i < 3 → num % 2 ^ 24 / 256 ^ i % 256 = num / 256 ^ i % 256 := by
  intro i hi
  interval_cases i
  · simpa using Nat.mod_mod_of_dvd num (by norm_num : (256 : Nat) ∣ 2 ^ 24)
  · have h1 : num % 2 ^ 24 / 256 = num / 256 % 65536 := by
      rw [show (2 : Nat) ^ 24 = 256 * 65536 from by norm_num]
      exact Nat.mod_mul_right_div_self num 256 65536
    have h2 : num / 256 % 65536 % 256 = num / 256 % 256 :=
      Nat.mod_mod_of_dvd _ (by norm_num : (256 : Nat) ∣ 65536)
    simp only [pow_one]
    rw [h1, h2]
  · have h1 : num % 2 ^ 24 / 65536 = num / 65536 % 256 := by
      rw [show (2 : Nat) ^ 24 = 65536 * 256 from by norm_num]
      exact Nat.mod_mul_right_div_self num 65536 256
    have h2 : num / 65536 % 256 % 256 = num / 65536 % 256 :=
      Nat.mod_mod_of_dvd _ dvd_rfl
    rw [show (256 : Nat) ^ 2 = 65536 from by norm_num, h1, h2]

/-- C7 (amended): whenever `num.to_bytes` does not overflow (it does at
`num = 2 ^ (8k)` for `k ≥ 3`, e.g. `2 ^ 24`, under the exact-log model),
`build_tag` returns exactly 4 bytes: `tag_id % 256` followed by
`num % 2 ^ 24` encoded as 3 little-endian bytes. -/
theorem C7_build_tag {tag_id num : Nat} {bs : List Nat}
    (h : build_tag tag_id num = some bs) :
    bs.length = 4 ∧
    bs = tag_id % 256 :: (List.range 3).map (fun i => num % 2 ^ 24 / 256 ^ i % 256) := by
  unfold build_tag at h
  set L := max 3 (if num > 0 then ceilLog2Div8 num else 3) with hLdef
  have hL3 : 3 ≤ L := le_max_left _ _
  unfold toBytesLE at h
  by_cases hlt : num < 256 ^ L
  · rw [if_pos hlt] at h
    simp only [Option.map_some'] at h
    have hbs := (Option.some.inj h).symm
    subst hbs
    constructor
    · simp only [List.length_cons, List.length_take, List.length_map, List.length_range]
      rw [Nat.min_eq_left hL3]
    · have htk : ((List.range L).map (fun i => num / 256 ^ i % 256)).take 3
          = (List.range 3).map (fun i => num / 256 ^ i % 256) := by
        rw [← List.map_take, List.take_range, Nat.min_eq_left hL3]
      rw [htk]
      congr 1
      apply List.map_congr_left
      intro i hi
      exact (digit_mod_pow24 num i (List.mem_range.mp hi)).symm
  · rw [if_neg hlt] at h
    simp at h

/-- C7 witness: the claim's own instance `build_tag 257 (2 ^ 24 + 2)` — run
byte `257 % 256 = 1`, iteration field decoding to `2`. -/
theorem C7_witness :
    build_tag 257 (2 ^ 24 + 2) = some [1, 2, 0, 0] ∧
    ([1, 2, 0, 0] : List Nat).length = 4 ∧
    ([1, 2, 0, 0] : List Nat)
      = 257 % 256 :: (List.range 3).map (fun i => (2 ^ 24 + 2) % 2 ^ 24 / 256 ^ i % 256) :=
  ⟨by decide, @C7_build_tag 257 (2 ^ 24 + 2) [1, 2, 0, 0] (by decide)⟩

/-!
## Metropolis-Hastings weights (`get_weights` in `iterative.py`)
-/

/-- Result of the degree lookup for one neighbor: an HTTP 200 response whose
body parses as an integer degree, or any failure (non-200 status — which
raises `RuntimeError`, caught by the bare `except` —, a request
timeout/error, or an unparseable body). -/
inductive DegreeResult : Type
  | ok : Nat → DegreeResult
  | failure : DegreeResult
deriving DecidableEq

/-- The weight `get_weights` assigns one neighbor: `1 / (max(deg, my_deg) + 1)`
on lookup success, `0` on any failure (Python float division modelled as
exact rational division). -/
def weight_of (lookup : String → DegreeResult) (my_deg : Nat) (n : String) : ℚ :=
  match lookup n with
  | .ok deg => (1 : ℚ) / ((max deg my_deg + 1 : Nat) : ℚ)
  | .failure => 0

/-- Model of `get_weights(neighbors, ...)` (HTTP path): iterate over the
neighbors, assigning each its weight in the dict; `None` neighbors yield the
empty dict.  `my_deg = len(neighbors)`. -/
def get_weights (lookup : String → DegreeResult) : Option (List String) → List (String × ℚ)
  | none => []
  | some neighbors =>
    neighbors.foldl (fun w n => dictSet n (weight_of lookup neighbors.length n) w) []

theorem dictGet_foldl_dictSet_notMem {V : Type} (g : String → V) :
    ∀ (l : List String) (w : List (String × V)) (n : String), n ∉ l →
      dictGet n (l.foldl (fun w m => dictSet m (g m) w) w) = dictGet n w := by
  intro l
  induction l with
  | nil => intro w n _; rfl
  | cons m rest ih =>
    intro w n hn
    have hm : m ≠ n := fun h => hn (h ▸ List.mem_cons_self m rest)
    have hr : n ∉ rest := fun h => hn (List.mem_cons_of_mem m h)
    simp only [List.foldl_cons]
    rw [ih _ n hr, dictGet_dictSet_ne _ _ hm]

theorem dictGet_foldl_dictSet_mem {V : Type} (g : String → V) :
    ∀ (l : List String) (w : List (String × V)) (n : String), l.Nodup → n ∈ l →
      dictGet n (l.foldl (fun w m => dictSet m (g m) w) w) = some (g n) := by
  intro l
  induction l with
  | nil => intro w n _ hn; cases hn
  | cons m rest ih =>
    intro w n hnd hn
    simp only [List.foldl_cons]
    by_cases hm : m = n
    · subst hm
      have hout : m ∉ rest := (List.nodup_cons.mp hnd).1
      rw [dictGet_foldl_dictSet_notMem g rest _ m hout, dictGet_dictSet_self]
    · have hr : n ∈ rest := by
        rcases List.mem_cons.mp hn with h | h
        · exact absurd h.symm hm
        · exact h
      exact ih _ n (List.nodup_cons.mp hnd).2 hr

/-- C9: Weight computation.  `get_weights` returns the empty map for a `None`
or empty neighbor set; each neighbor with a successful degree lookup `deg`
gets weight `1 / (max(deg, |neighbors|) + 1)`; each neighbor whose lookup
fails gets weight `0`, without aborting the computation for the other
neighbors. -/
theorem C9_weights :
    (∀ lookup : String → DegreeResult, get_weights lookup none = []) ∧
    (∀ lookup : String → DegreeResult, get_weights lookup (some []) = []) ∧
    (∀ (lookup : String → DegreeResult) (neighbors : List String) (n : String) (deg : Nat),
      neighbors.Nodup → n ∈ neighbors → lookup n = .ok deg →
      dictGet n (get_weights lookup (some neighbors))
        = some ((1 : ℚ) / ((max deg neighbors.length + 1 : Nat) : ℚ))) ∧
    (∀ (lookup : String → DegreeResult) (neighbors : List String) (n : String),
      neighbors.Nodup → n ∈ neighbors → lookup n = .failure →
      dictGet n (get_weights lookup (some neighbors)) = some 0) := by
  refine ⟨fun _ => rfl, fun _ => rfl, ?_, ?_⟩
  · intro lookup neighbors n deg hnd hn hok
    unfold get_weights
    rw [dictGet_foldl_dictSet_mem _ neighbors [] n hnd hn]
    simp [weight_of, hok]
  · intro lookup neighbors n hnd hn hfail
    unfold get_weights
    rw [dictGet_foldl_dictSet_mem _ neighbors [] n hnd hn]
    simp [weight_of, hfail]

/-- C9 witness: neighbor degrees {A: 2, B: 3} with local degree 2 give
weights 1/3 and 1/4; an unreachable neighbor gets 0; the empty set gives the
empty map. -/
theorem C9_witness :
    dictGet "A" (get_weights (fun n => if n = "A" then .ok 2 else .ok 3) (some ["A", "B"]))
      = some (1 / 3 : ℚ) ∧
    dictGet "B" (get_weights (fun n => if n = "A" then .ok 2 else .ok 3) (some ["A", "B"]))
      = some (1 / 4 : ℚ) ∧
    dictGet "C" (get_weights (fun _ => DegreeResult.failure) (some ["C", "D"]))
      = some (0 : ℚ) ∧
    get_weights (fun _ => DegreeResult.failure) (some []) = [] := by
  refine ⟨?_, ?_, ?_, C9_weights.2.1 _⟩
  · rw [C9_weights.2.2.1 _ ["A", "B"] "A" 2 (by decide) (by decide) (by decide)]
    norm_num
  · rw [C9_weights.2.2.1 _ ["A", "B"] "B" 3 (by decide) (by decide) (by decide)]
    norm_num
  · exact C9_weights.2.2.2 _ ["C", "D"] "C" (by decide) (by decide) rfl

/-!
## Consensus run (`run` in `adac/consensus/iterative.py`)

The estimate lives in a rational vector space `V` (numpy matrices with exact
arithmetic).  Transport, serialization (`matrix_to_bytes` /
`matrix_from_bytes`, a pickle round-trip) and wall-clock time are abstracted
into oracles: `first i j` is the decoded payload the `receive()` helper
obtains from `communicator.get` for neighbor `j` at iteration `i` (`none`
when nothing has arrived); `retryRes i j k` is the decoded result of the
k-th retry `communicator.get` inside the missing-data while-loop for
`(i, j)`; and `retryTime i j k` is the elapsed wall-clock seconds
`time.time() - start` when the loop's timeout guard runs before that
attempt.  The `fuel` argument bounds how many while-loop steps the model can
unfold; exhausting it returns the outer `none`, meaning the Python loop has
not returned by then (the inner `some none` is the run returning `None`). -/

structure Sched (V : Type) where
  first : Nat → String → Option V
  retryRes : Nat → String → Nat → Option V
  retryTime : Nat → String → Nat → ℚ

/-- Model of the missing-data while-loop (lines 130-145 of `iterative.py`)
for one neighbor with weight `w`: while the queue is nonempty, abort with
`None` once more than 15 seconds have elapsed, else pop the oldest tag,
attempt a get, on success accumulate `w • (value - old_data)`, on failure
re-append the tag. -/
def innerLoop {V : Type} [AddCommGroup V] [Module ℚ V] (w : ℚ) (old : V)
    (rtime : Nat → ℚ) (rres : Nat → Option V) :
    Nat → Nat → List (List Nat) → V → Option (Option V)
  | _, _, [], acc => some (some acc)
  | 0, _, _ :: _, _ => none
  | fuel + 1, k, t :: q, acc =>
    if rtime k > 15 then some none
    else
      match rres k with
      | some v => innerLoop w old rtime rres fuel (k + 1) q (acc + w • (v - old))
      | none => innerLoop w old rtime rres fuel (k + 1) (q ++ [t]) acc

/-- Model of the per-iteration neighbor loop (lines 116-147): for each
neighbor, process freshly received data or enqueue the tag as missing, then
drain the missing queue with the timeout-guarded while-loop. -/
def neighLoop {V : Type} [AddCommGroup V] [Module ℚ V] (sched : Sched V)
    (tagb : List Nat) (i : Nat) (old : V) (fuel : Nat) :
    List (String × ℚ) → List (String × List (List Nat)) → V →
    Option (Option (V × List (String × List (List Nat))))
  | [], missing, acc => some (some (acc, missing))
  | (j, w) :: rest, missing, acc =>
    match sched.first i j with
    | some v0 =>
      match innerLoop w old (sched.retryTime i j) (sched.retryRes i j) fuel 0
          ((dictGet j missing).getD []) (acc + w • (v0 - old)) with
      | none => none
      | some none => some none
      | some (some acc2) => neighLoop sched tagb i old fuel rest (dictSet j [] missing) acc2
    | none =>
      match innerLoop w old (sched.retryTime i j) (sched.retryRes i j) fuel 0
          ((dictGet j missing).getD [] ++ [tagb]) acc with
      | none => none
      | some none => some none
      | some (some acc2) => neighLoop sched tagb i old fuel rest (dictSet j [] missing) acc2

/-- Model of the iteration loop of `run` (lines 101-151): per iteration build
the tag (a `build_tag` exception propagates), transmit (a side effect not
modelled), run the neighbor loop, and update
`new_data = old_data + tempsum`; after `tc` iterations return the
estimate. -/
def iterLoop {V : Type} [AddCommGroup V] [Module ℚ V] (sched : Sched V) (tag_id : Nat)
    (neigh : List (String × ℚ)) (fuel : Nat) :
    Nat → Nat → V → List (String × List (List Nat)) → Option (Option V)
  | _, 0, nd, _ => some (some nd)
  | i, r + 1, nd, missing =>
    match build_tag tag_id i with
    | none => none
    | some tagb =>
      match neighLoop sched tagb i nd fuel neigh missing 0 with
      | none => none
      | some none => some none
      | some (some (tempsum, missing2)) =>
        iterLoop sched tag_id neigh fuel (i + 1) r (nd + tempsum) missing2

/-- Model of `run(orig_data, tc, tag_id, neighbors, communicator)`:
`missing_data[n]` starts as an empty deque for every neighbor. -/
def consensus_run {V : Type} [AddCommGroup V] [Module ℚ V] (sched : Sched V) (orig : V)
    (tc tag_id : Nat) (neigh : List (String × ℚ)) (fuel : Nat) : Option (Option V) :=
  iterLoop sched tag_id neigh fuel 0 tc orig (neigh.map (fun p => (p.1, [])))

/-- One iteration of the pure consensus update rule:
`new = old + Σ over neighbors of weight • (received - old)`. -/
def estStep {V : Type} [AddCommGroup V] [Module ℚ V] (neigh : List (String × ℚ))
    (v : Nat → String → V) (i : Nat) (old : V) : V :=
  old + neigh.foldl (fun acc p => acc + p.2 • (v i p.1 - old)) 0

/-- The pure reference estimate after running iterations `i, ..., i + r - 1`
starting from `nd`. -/
def estFrom {V : Type} [AddCommGroup V] [Module ℚ V] (neigh : List (String × ℚ))
    (v : Nat → String → V) : Nat → Nat → V → V
  | _, 0, nd => nd
  | i, r + 1, nd => estFrom neigh v (i + 1) r (estStep neigh v i nd)

/-- The final estimate of a `tc`-iteration consensus run with received
values `v`. -/
def consensus_estimate {V : Type} [AddCommGroup V] [Module ℚ V]
    (neigh : List (String × ℚ)) (v : Nat → String → V) (tc : Nat) (orig : V) : V :=
  estFrom neigh v 0 tc orig

theorem trivialMissing_init (neigh : List (String × ℚ)) :
    ∀ j, (dictGet j (neigh.map (fun p => (p.1, ([] : List (List Nat)))))).getD [] = [] := by
  intro j
  induction neigh with
  | nil => rfl
  | cons a rest ih =>
    by_cases h : a.1 = j
    · simp [dictGet, h]
    · simp [dictGet, h, ih]

theorem trivialMissing_dictSet {missing : List (String × List (List Nat))} (j : String)
    (hm : ∀ j2, (dictGet j2 missing).getD [] = []) :
    ∀ j2, (dictGet j2 (dictSet j [] missing)).getD [] = [] := by
  intro j2
  by_cases h : j = j2
  · subst h
    rw [dictGet_dictSet_self]
    rfl
  · rw [dictGet_dictSet_ne _ _ h]
    exact hm j2

/-- The outcome of the retry loop for one missing datum, walked directly
over the oracles: starting at attempt `k`, scan forward; at each attempt the
timeout guard aborts with `None` (`some none`) when more than 15 seconds
have elapsed, else a successful get resolves the value (`some (some v)`);
exhausting the fuel means the loop has not returned (`none`). -/
def resolveVal {V : Type} (rtime : Nat → ℚ) (rres : Nat → Option V) :
    Nat → Nat → Option (Option V)
  | 0, _ => none
  | fuel + 1, k =>
    if rtime k > 15 then some none
    else
      match rres k with
      | some v => some (some v)
      | none => resolveVal rtime rres fuel (k + 1)

/-- The value the engine ends up using for neighbor `j` at iteration `i`:
the freshly received datum if one arrived, else the outcome of the retry
loop — `some (some v)` when the datum is retrieved within the time budget
(possibly after several failed retries), `some none` when the 15-second
budget is exhausted first. -/
def effVal {V : Type} (sched : Sched V) (i : Nat) (j : String) (fuel : Nat) :
    Option (Option V) :=
  match sched.first i j with
  | some v => some (some v)
  | none => resolveVal (sched.retryTime i j) (sched.retryRes i j) fuel 0

/-- The missing-data while-loop on a single-tag queue is exactly the oracle
scan `resolveVal`, with a resolved value contributing its weighted diff. -/
theorem innerLoop_single {V : Type} [AddCommGroup V] [Module ℚ V] (w : ℚ) (old : V)
    (rtime : Nat → ℚ) (rres : Nat → Option V) (t : List Nat) :
    ∀ (fuel k : Nat) (acc : V),
      innerLoop w old rtime rres fuel k [t] acc
        = match resolveVal rtime rres fuel k with
          | none => none
          | some none => some none
          | some (some v) => some (some (acc + w • (v - old))) := by
  intro fuel
  induction fuel with
  | zero => intro k acc; rfl
  | succ f ih =>
    intro k acc
    by_cases ht : rtime k > 15
    · simp only [innerLoop, resolveVal, if_pos ht]
    · cases hr : rres k with
      | some v =>
        simp only [innerLoop, resolveVal, if_neg ht, hr]
      | none =>
        simp only [innerLoop, resolveVal, if_neg ht, hr, List.nil_append]
        exact ih (k + 1) acc

/-- Sequential resolution of the per-neighbor contributions of one
iteration: stop with `some none` at the first neighbor whose retry loop
times out, accumulate the weighted diffs otherwise. -/
def resolveFold {V : Type} [AddCommGroup V] [Module ℚ V] (sched : Sched V)
    (i : Nat) (old : V) (fuel : Nat) :
    List (String × ℚ) → V → Option (Option V)
  | [], acc => some (some acc)
  | (j, w) :: rest, acc =>
    match effVal sched i j fuel with
    | none => none
    | some none => some none
    | some (some v) => resolveFold sched i old fuel rest (acc + w • (v - old))

/-- The neighbor loop, from a state with all missing queues empty, computes
exactly the sequential resolution `resolveFold` and leaves all queues
empty (no hypotheses on the schedule: data may arrive first-try, after
retries, or time out). -/
theorem neighLoop_resolve {V : Type} [AddCommGroup V] [Module ℚ V] (sched : Sched V)
    (tagb : List Nat) (i : Nat) (old : V) (fuel : Nat) :
    ∀ (l : List (String × ℚ)) (missing : List (String × List (List Nat))) (acc : V),
      (∀ j, (dictGet j missing).getD [] = []) →
      ∃ missing2, (∀ j, (dictGet j missing2).getD [] = []) ∧
        neighLoop sched tagb i old fuel l missing acc
          = match resolveFold sched i old fuel l acc with
            | none => none
            | some none => some none
            | some (some acc2) => some (some (acc2, missing2)) := by
  intro l
  induction l with
  | nil =>
    intro missing acc hm
    exact ⟨missing, hm, rfl⟩
  | cons p rest ih =>
    intro missing acc hm
    obtain ⟨j, w⟩ := p
    cases hf : sched.first i j with
    | some v0 =>
      obtain ⟨missing2, hm2, heq⟩ := ih (dictSet j [] missing) (acc + w • (v0 - old))
        (trivialMissing_dictSet j hm)
      refine ⟨missing2, hm2, ?_⟩
      simp only [neighLoop, hf, hm j, innerLoop, resolveFold, effVal]
      exact heq
    | none =>
      cases hrv : resolveVal (sched.retryTime i j) (sched.retryRes i j) fuel 0 with
      | none =>
        refine ⟨missing, hm, ?_⟩
        simp only [neighLoop, hf, hm j, List.nil_append]
        rw [innerLoop_single, hrv]
        simp only [resolveFold, effVal, hf, hrv]
      | some o =>
        cases o with
        | none =>
          refine ⟨missing, hm, ?_⟩
          simp only [neighLoop, hf, hm j, List.nil_append]
          rw [innerLoop_single, hrv]
          simp only [resolveFold, effVal, hf, hrv]
        | some v =>
          obtain ⟨missing2, hm2, heq⟩ := ih (dictSet j [] missing) (acc + w • (v - old))
            (trivialMissing_dictSet j hm)
          refine ⟨missing2, hm2, ?_⟩
          simp only [neighLoop, hf, hm j, List.nil_append]
          rw [innerLoop_single, hrv]
          simp only [resolveFold, effVal, hf, hrv]
          exact heq

theorem resolveFold_ok {V : Type} [AddCommGroup V] [Module ℚ V] (sched : Sched V)
    (i : Nat) (old : V) (fuel : Nat) (v : Nat → String → V) :
    ∀ (l : List (String × ℚ)) (acc : V),
      (∀ p ∈ l, effVal sched i p.1 fuel = some (some (v i p.1))) →
      resolveFold sched i old fuel l acc
        = some (some (l.foldl (fun acc p => acc + p.2 • (v i p.1 - old)) acc)) := by
  intro l
  induction l with
  | nil => intro acc _; rfl
  | cons p rest ih =>
    intro acc hres
    obtain ⟨j, w⟩ := p
    have hj : effVal sched i j fuel = some (some (v i j)) := hres (j, w) (by simp)
    simp only [resolveFold, hj, List.foldl_cons]
    exact ih _ (fun q hq => hres q (by simp [hq]))

theorem resolveFold_timeout {V : Type} [AddCommGroup V] [Module ℚ V] (sched : Sched V)
    (i : Nat) (old : V) (fuel : Nat) (v : Nat → String → V)
    (post : List (String × ℚ)) (j0 : String) (w0 : ℚ)
    (hj0 : effVal sched i j0 fuel = some none) :
    ∀ (pre : List (String × ℚ)) (acc : V),
      (∀ p ∈ pre, effVal sched i p.1 fuel = some (some (v i p.1))) →
      resolveFold sched i old fuel (pre ++ (j0, w0) :: post) acc = some none := by
  intro pre
  induction pre with
  | nil =>
    intro acc _
    simp only [List.nil_append, resolveFold, hj0]
  | cons p rest ih =>
    intro acc hres
    obtain ⟨j, w⟩ := p
    have hj : effVal sched i j fuel = some (some (v i j)) := hres (j, w) (by simp)
    simp only [List.cons_append, resolveFold, hj]
    exact ih _ (fun q hq => hres q (by simp [hq]))

/-- When every neighbor's datum resolves within the budget at every
iteration (first-try or after retries), the run completes all iterations
with the resolved values. -/
theorem iterLoop_resolve_ok {V : Type} [AddCommGroup V] [Module ℚ V] (sched : Sched V)
    (tag_id : Nat) (neigh : List (String × ℚ)) (fuel : Nat) (v : Nat → String → V) :
    ∀ (r i : Nat) (nd : V) (missing : List (String × List (List Nat))),
      (∀ j, (dictGet j missing).getD [] = []) →
      (∀ k, k < r → ∀ p ∈ neigh, effVal sched (i + k) p.1 fuel = some (some (v (i + k) p.1))) →
      (∀ k, k < r → (build_tag tag_id (i + k)).isSome) →
      iterLoop sched tag_id neigh fuel i r nd missing
        = some (some (estFrom neigh v i r nd)) := by
  intro r
  induction r with
  | zero =>
    intro i nd missing _ _ _
    rfl
  | succ r2 ih =>
    intro i nd missing hm hres hbt
    have hb : (build_tag tag_id i).isSome := by simpa using hbt 0 (by omega)
    obtain ⟨tagb, htagb⟩ := Option.isSome_iff_exists.mp hb
    obtain ⟨missing2, hm2, heq⟩ := neighLoop_resolve sched tagb i nd fuel neigh missing 0 hm
    have hrf := resolveFold_ok sched i nd fuel v neigh 0
      (fun p hp => by simpa using hres 0 (by omega) p hp)
    rw [hrf] at heq
    simp only [iterLoop, htagb, heq]
    rw [ih (i + 1) _ missing2 hm2
      (fun k hk p hp => by
        have := hres (k + 1) (by omega) p hp
        rw [show i + (k + 1) = i + 1 + k from by omega] at this
        exact this)
      (fun k hk => by
        have := hbt (k + 1) (by omega)
        rw [show i + (k + 1) = i + 1 + k from by omega] at this
        exact this)]
    rfl

/-- Reaching iteration `i0` with every earlier datum resolving within the
budget, then exhausting the budget on the first unresolved neighbor (after
any number of failed retries), makes the run return the explicit `None`. -/
theorem iterLoop_resolve_timeout {V : Type} [AddCommGroup V] [Module ℚ V] (sched : Sched V)
    (tag_id : Nat) (fuel : Nat) (v : Nat → String → V)
    (pre post : List (String × ℚ)) (j0 : String) (w0 : ℚ) (i0 : Nat)
    (hrpre : ∀ i, i < i0 → ∀ p ∈ pre ++ (j0, w0) :: post,
      effVal sched i p.1 fuel = some (some (v i p.1)))
    (hpre : ∀ p ∈ pre, effVal sched i0 p.1 fuel = some (some (v i0 p.1)))
    (hj0 : effVal sched i0 j0 fuel = some none) :
    ∀ (r i : Nat) (nd : V) (missing : List (String × List (List Nat))),
      (∀ j, (dictGet j missing).getD [] = []) →
      (∀ k, i + k ≤ i0 → (build_tag tag_id (i + k)).isSome) →
      i ≤ i0 → i0 < i + r →
      iterLoop sched tag_id (pre ++ (j0, w0) :: post) fuel i r nd missing = some none := by
  intro r
  induction r with
  | zero =>
    intro i nd missing _ _ _ hlt
    omega
  | succ r2 ih =>
    intro i nd missing hm hbt hle hlt
    have hb : (build_tag tag_id i).isSome := by simpa using hbt 0 (by omega)
    obtain ⟨tagb, htagb⟩ := Option.isSome_iff_exists.mp hb
    obtain ⟨missing2, hm2, heq⟩ := neighLoop_resolve sched tagb i nd fuel
      (pre ++ (j0, w0) :: post) missing 0 hm
    by_cases hi : i = i0
    · subst hi
      rw [resolveFold_timeout sched i nd fuel v post j0 w0 hj0 pre 0 hpre] at heq
      simp only [iterLoop, htagb, heq]
    · have hile : i < i0 := by omega
      rw [resolveFold_ok sched i nd fuel v (pre ++ (j0, w0) :: post) 0
        (fun p hp => hrpre i hile p hp)] at heq
      simp only [iterLoop, htagb, heq]
      exact ih (i + 1) _ missing2 hm2
        (fun k hk => by
          have := hbt (k + 1) (by omega)
          rw [show i + (k + 1) = i + 1 + k from by omega] at this
          exact this)
        (by omega) (by omega)

/-- C8: Consensus timeout and completion.  Whenever the missing-data retry
loop exhausts its 15-second wall-clock budget waiting on a neighbor — at the
first retry check or after any number of failed retries
(`effVal … = some none`) — while every earlier datum resolved within the
budget, the run aborts and returns the explicit no-result signal `None`,
never a partially updated estimate; and whenever no timeout occurs, i.e.
every neighbor's datum resolves within the budget at every iteration
(first-try or after retries), the run completes its `tc` iterations and
returns the final estimate of the consensus update rule applied to the
resolved values. -/
theorem C8_timeout_and_completion {V : Type} [AddCommGroup V] [Module ℚ V] :
    (∀ (sched : Sched V) (v : Nat → String → V) (orig : V) (tc tag_id : Nat)
        (neigh : List (String × ℚ)) (fuel : Nat),
      (∀ i, i < tc → ∀ p ∈ neigh, effVal sched i p.1 fuel = some (some (v i p.1))) →
      (∀ i, i < tc → (build_tag tag_id i).isSome) →
      consensus_run sched orig tc tag_id neigh fuel
        = some (some (consensus_estimate neigh v tc orig))) ∧
    (∀ (sched : Sched V) (v : Nat → String → V) (orig : V) (tc tag_id : Nat)
        (pre post : List (String × ℚ)) (j0 : String) (w0 : ℚ) (i0 : Nat) (fuel : Nat),
      (∀ i, i < i0 → ∀ p ∈ pre ++ (j0, w0) :: post,
        effVal sched i p.1 fuel = some (some (v i p.1))) →
      (∀ p ∈ pre, effVal sched i0 p.1 fuel = some (some (v i0 p.1))) →
      effVal sched i0 j0 fuel = some none →
      i0 < tc →
      (∀ i, i ≤ i0 → (build_tag tag_id i).isSome) →
      consensus_run sched orig tc tag_id (pre ++ (j0, w0) :: post) fuel = some none) := by
  constructor
  · intro sched v orig tc tag_id neigh fuel hres hbt
    unfold consensus_run consensus_estimate
    exact iterLoop_resolve_ok sched tag_id neigh fuel v tc 0 orig _
      (trivialMissing_init neigh)
      (fun k hk p hp => by simpa using hres k (by omega) p hp)
      (fun k hk => by simpa using hbt k (by omega))
  · intro sched v orig tc tag_id pre post j0 w0 i0 fuel hrpre hpre hj0 hi0 hbt
    unfold consensus_run
    exact iterLoop_resolve_timeout sched tag_id fuel v pre post j0 w0 i0 hrpre hpre hj0
      tc 0 orig _ (trivialMissing_init _)
      (fun k hk => by simpa using hbt k (by omega)) (by omega) (by omega)

/-- C8 witness: a 2-iteration run whose data arrives only on the second
retry attempt still returns the estimate, and a run on a silent neighbor
whose budget runs out at the third retry check (after two failed retries)
returns `None`. -/
theorem C8_witness :
    consensus_run (V := ℚ)
        ⟨fun _ _ => none, fun _ _ k => if k = 1 then some 1 else none, fun _ _ _ => 0⟩
        1 2 1 [("A", 1 / 3)] 3
      = some (some (consensus_estimate [("A", 1 / 3)] (fun _ _ => (1 : ℚ)) 2 1)) ∧
    consensus_run (V := ℚ)
        ⟨fun _ _ => none, fun _ _ _ => none, fun _ _ k => if k < 2 then 0 else 16⟩
        0 1 1 [("A", 1 / 2)] 3
      = some none := by
  constructor
  · exact C8_timeout_and_completion.1 _ (fun _ _ => (1 : ℚ)) 1 2 1 [("A", 1 / 3)] 3
      (by
        intro i hi p hp
        have hp1 : p = ("A", (1 / 3 : ℚ)) := by simpa using hp
        subst hp1
        rfl)
      (by intro i hi; interval_cases i <;> decide)
  · exact C8_timeout_and_completion.2 _ (fun _ _ => (0 : ℚ)) 0 1 1 [] [] "A" (1 / 2) 0 3
      (fun i hi => absurd hi (by omega))
      (fun p hp => absurd hp (by simp))
      (by decide) (by omega)
      (by
        intro i hi
        have hz : i = 0 := by omega
        subst hz
        decide)

end Adac
